import Mathlib

/-!
Verification of the tiered-enumeration core of python-leancheck.

Enumerations are represented in the source as (potentially infinite)
generators of finite lists: tiers of values of increasing size.  We embed
a tier stream either as a finite list of tiers (`List (List α)`) or, where
the generator is potentially infinite, as a total function `Nat → List α`
where every index past the end of the stream returns `[]` — this matches
what `pproduct` observes through `next(xss, [])`, which cannot distinguish
an exhausted generator from an empty tier.

Python generators are demand-driven; where a loop is unbounded we add an
explicit fuel argument counting how many tiers the consumer demands.
-/

set_option autoImplicit false

namespace LeanCheck

variable {α β γ : Type}

/-- Embedding of `iitertools.nest`: each value of the input becomes its own
singleton tier. -/
def nest (xs : List α) : List (List α) :=
  xs.map (fun x => [x])

/-- Embedding of `iitertools.intercalate`: alternate elements of the two
iterables, starting with the first; when one side is exhausted the rest of
the other side is yielded.  The Python `while True` loop yields one element
of each side per iteration, breaking out with `yield from` on the first
`StopIteration`, which is exactly the three cases below. -/
def intercalate : List α → List α → List α
  | [], ys => ys
  | x :: xs, [] => x :: xs
  | x :: xs, y :: ys => x :: y :: intercalate xs ys

/-- Length of the longest tier list among the inputs; `itertools.zip_longest`
iterates this many rows. -/
def maxLength (tss : List (List (List α))) : Nat :=
  tss.foldr (fun ts m => max ts.length m) 0

/-- Embedding of `iitertools.zippend` (n-ary): row `i` of
`zip_longest(*iiterables, fillvalue=[])` holds tier `i` of every input
(`[]` when an input is shorter), and `itertools.chain` concatenates the row
in argument order. -/
def zippend (tss : List (List (List α))) : List (List α) :=
  (List.range (maxLength tss)).map (fun i => (tss.map (fun ts => ts.getD i [])).flatten)

/-- Embedding of `Enumerator.choices` applied to a single list argument:
`tierify` takes the `iter(obj)` branch and yields `nest` of the values,
and `zippend` is applied to that single tier generator. -/
def choicesL (vs : List α) : List (List α) :=
  zippend [nest vs]

/-- View a finite list of tiers as the tier-at-index function that
`next(gen, [])` presents to a consumer: past the end, every pull returns
`[]`. -/
def tiersOf (tss : List (List α)) : Nat → List α :=
  fun k => tss.getD k []

/-- The tier computed by the body of `iitertools.pproduct` at step `l = k+1`
(0-based output index `k`): `zs += [with_f(x, y) for x in xss_[i] for y in
yss_[l-i-1]]` for `i in range(0, l)`. -/
def pproductTier (xss : Nat → List α) (yss : Nat → List β) (f : α → β → γ) (k : Nat) : List γ :=
  (List.range (k + 1)).flatMap (fun i => (xss i).flatMap (fun x => ((yss (k - i)).map (fun y => f x y))))

/-- The tiers yielded by `iitertools.pproduct` starting from output index
`k`, with `fuel` bounding how many iterations of the `while True` loop the
consumer demands.  Faithful to the source's termination test: as soon as a
computed tier `zs` is empty the loop `break`s, discarding everything that
would come later (the source comments this as "sound-but-incomplete"). -/
def pproductFrom (xss : Nat → List α) (yss : Nat → List β) (f : α → β → γ) : Nat → Nat → List (List γ)
  | _, 0 => []
  | k, fuel + 1 =>
    let zs := pproductTier xss yss f k
    if zs.isEmpty then [] else zs :: pproductFrom xss yss f (k + 1) fuel

/-- Embedding of `iitertools.pproduct`: the first `fuel` tiers demanded of
the product generator. -/
def pproduct (xss : Nat → List α) (yss : Nat → List β) (f : α → β → γ) (fuel : Nat) : List (List γ) :=
  pproductFrom xss yss f 0 fuel

/-- Embedding of `iitertools.mmap`: apply `f` to every value, tier by tier. -/
def mmap (f : α → β) (tss : List (List α)) : List (List β) :=
  tss.map (fun ts => ts.map f)

/-- Embedding of `iitertools.listss` as the list of its first `k+1` tiers.
The source is the self-referential generator
`yield [[]]; yield from pproduct(mkTiers(), listss(mkTiers), with_f=cons)`:
tier `0` is `[[]]` and tier `k+1` is `pproductTier` of the element tiers
with the stream's own earlier tiers (the recursive generator instance),
which the accumulator `prev` supplies. -/
def listssTiers (tss : Nat → List α) : Nat → List (List (List α))
  | 0 => [[[]]]
  | k + 1 =>
    let prev := listssTiers tss k
    prev ++ [(List.range (k + 1)).flatMap
      (fun i => (tss i).flatMap (fun x => (prev.getD (k - i) []).map (fun xs => x :: xs)))]

/-- Embedding of the binary digits of `n`, least significant first, as
successively produced by `n % 2` and `n //= 2` in `gen.fusc`'s loop.  The
structural fuel is the initial `n` itself, which suffices since `n //= 2`
at least halves a positive `n`. -/
def bitsAux : Nat → Nat → List Bool
  | 0, _ => []
  | fuel + 1, n => if n = 0 then [] else (decide (n % 2 = 1)) :: bitsAux fuel (n / 2)

/-- Binary digits of `n`, least significant bit first. -/
def bitsLSB (n : Nat) : List Bool :=
  bitsAux n n

/-- Embedding of the `while n:` loop of `gen.fusc`: with accumulator pair
`(a, b)`, a `0` bit does `a += b` and a `1` bit does `b += a`, then
`n //= 2`.  Structural fuel as in `bitsAux`. -/
def fuscGo : Nat → Nat → Nat → Nat → Nat
  | 0, _, _, b => b
  | fuel + 1, n, a, b =>
    if n = 0 then b
    else if n % 2 = 0 then fuscGo fuel (n / 2) (a + b) b
    else fuscGo fuel (n / 2) a (b + a)

/-- Embedding of `gen.fusc` (EWD 570): scan the bits of `n` from least to
most significant, starting from `(a, b) = (1, 0)`, and return the final
`b`. -/
def fusc (n : Nat) : Nat :=
  fuscGo n n 1 0

/-- Modelled from the spec: one accumulator step of the spec's fusc
algorithm — "if bit is 0, a += b; else b += a". -/
def fuscStep (p : Nat × Nat) (bit : Bool) : Nat × Nat :=
  if bit then (p.1, p.2 + p.1) else (p.1 + p.2, p.2)

/-- Modelled from the spec: "compute via accumulator pair (a,b)=(1,0),
scanning bits of n from most to least significant: if bit is 0, a+=b; else
b+=a; final b = fusc(n)". -/
def fuscSpec (n : Nat) : Nat :=
  ((bitsLSB n).reverse.foldl fuscStep (1, 0)).2

/-- Embedding of `gen.positive_floats`: the `k`-th generated value (counting
from 0) is `fusc(n) / fusc(n+1)` for `n = k + 1`, pairing `fuscs()` with its
own tail.  The Python float division of two machine integers is embedded as
exact division in `ℚ` (every quotient of fusc numbers is a rational). -/
def positive_floats (k : Nat) : ℚ :=
  (fusc (k + 1) : ℚ) / (fusc (k + 2) : ℚ)

/-- Embedding of `string.ascii_lowercase`. -/
def ascii_lowercase : List Char :=
  "abcdefghijklmnopqrstuvwxyz".toList

/-- Embedding of `string.whitespace`. -/
def whitespace : List Char :=
  " \t\n\r\x0b\x0c".toList

/-- Embedding of `string.digits`. -/
def digits : List Char :=
  "0123456789".toList

/-- Embedding of `string.ascii_uppercase`. -/
def ascii_uppercase : List Char :=
  "ABCDEFGHIJKLMNOPQRSTUVWXYZ".toList

/-- Embedding of `string.punctuation`. -/
def punctuation : List Char :=
  "!\"#$%&\x27()*+,-./:;<=>?@[\\]^_\x60\x7b|\x7d~".toList

/-- Embedding of `gen.chars`: the nested intercalation of lowercase,
whitespace, digits, uppercase and punctuation, in that priority. -/
def chars : List Char :=
  intercalate ascii_lowercase
    (intercalate whitespace
      (intercalate digits
        (intercalate ascii_uppercase punctuation)))

/-- The tier stream `ii.nest(chars())` used by `gen.stringss`: character at
priority `k` sits alone in tier `k`. -/
def charsTiers : Nat → List Char :=
  tiersOf (nest chars)

/-- Embedding of `gen.stringss` as its first `k+1` tiers:
`ii.mmap(lambda cs: "".join(cs), ii.listss(lambda: ii.nest(chars())))`,
with `"".join` embedded as `String.mk`. -/
def stringssTiers (k : Nat) : List (List String) :=
  mmap String.mk (listssTiers charsTiers k)

/-- The names bound by `def` in the module `leancheck.gen` (`gen.py`). -/
def genDefNames : List String :=
  ["ints", "positive_ints", "negative_ints", "non_negative_ints",
   "floats", "positive_floats", "negative_floats", "non_negative_floats",
   "fuscs", "fusc", "chars", "stringss"]

/-- The attribute of `leancheck.gen` that `enumerator.py` dereferences in
`Enumerator.register(str, Enumerator(gen.strss))` at module initialization. -/
def strRegistrationAttr : String :=
  "strss"

/-! ### A 2×2 matrix view of the fusc accumulator updates

Each bit of `n` acts on the accumulator pair `(a, b)` as an invertible
linear map, i.e. as a 2×2 matrix acting on row vectors.  This lets us
compare the code's least-significant-first scan with the spec's
most-significant-first scan. -/

/-- A 2×2 natural-number matrix `[[a, b], [c, d]]`, acting on the fusc
accumulator pair as a row vector: `(x, y) ↦ (x*a + y*c, x*b + y*d)`. -/
structure Mat2 where
  a : Nat
  b : Nat
  c : Nat
  d : Nat
deriving DecidableEq

/-- Matrix product. -/
def mmul (M N : Mat2) : Mat2 :=
  ⟨M.a * N.a + M.b * N.c, M.a * N.b + M.b * N.d,
   M.c * N.a + M.d * N.c, M.c * N.b + M.d * N.d⟩

/-- Matrix transpose. -/
def mtrans (M : Mat2) : Mat2 :=
  ⟨M.a, M.c, M.b, M.d⟩

/-- Identity matrix. -/
def mId : Mat2 :=
  ⟨1, 0, 0, 1⟩

/-- The matrix of one accumulator update: a `0` bit does `a += b`
(`(x, y) ↦ (x + y, y)`), a `1` bit does `b += a` (`(x, y) ↦ (x, y + x)`). -/
def mOfBit : Bool → Mat2
  | false => ⟨1, 0, 1, 1⟩
  | true => ⟨1, 1, 0, 1⟩

/-- Product of the update matrices of a bit list, leftmost bit applied
first. -/
def mProd : List Bool → Mat2
  | [] => mId
  | bt :: L => mmul (mOfBit bt) (mProd L)

/-! ### Arguments to `Enumerator.choices` and their re-iteration behaviour

`Enumerator.choices` stores its arguments and re-runs `tierify` on them at
every call of the `tiers()` lambda.  `tierify` tries `obj()` (a callable
produces a fresh iterator each call), then `iter(obj)` (a list or other
collection produces a fresh iterator; a generator object returns itself
and is consumed), then falls back to `unit(obj)`. -/

/-- A Python argument passed to `Enumerator.choices`, together with the
state relevant to iteration.  `generator` carries the values its one-shot
iterator has not produced yet; the other shapes are stateless recipes. -/
inductive PyArg (α : Type) where
  | callable (vs : List α) : PyArg α
  | iterable (vs : List α) : PyArg α
  | generator (vs : List α) : PyArg α
  | plain (v : α) : PyArg α
deriving DecidableEq

/-- Embedding of `tierify` inside one call of the `tiers()` lambda: the
tiers the argument contributes to this call, and the argument's state
afterwards.  Consuming `iter(obj)` of a generator object exhausts it; a
callable or collection is unaffected; a non-iterable value is wrapped by
`unit` into one singleton tier. -/
def tierify {α : Type} : PyArg α → List (List α) × PyArg α
  | .callable vs => (nest vs, .callable vs)
  | .iterable vs => (nest vs, .iterable vs)
  | .generator vs => (nest vs, .generator [])
  | .plain v => ([[v]], .plain v)

/-- Whether an argument is a re-iterable recipe (anything but a one-shot
generator object). -/
def reiterable {α : Type} : PyArg α → Bool
  | .generator _ => false
  | _ => true

/-- One call of the `tiers()` lambda built by `Enumerator.choices`:
`ii.zippend(*[tierify(i) for i in iis])`, returning the produced tiers and
the arguments' states after the call. -/
def choicesTiersCall {α : Type} (args : List (PyArg α)) : List (List α) × List (PyArg α) :=
  (zippend (args.map (fun a => (tierify a).1)), args.map (fun a => (tierify a).2))

/-! ### Type registry and resolution (`Enumerator.find`) -/

/-- A type descriptor as dispatched on by `Enumerator.find`: a scalar
type, a `types.GenericAlias` with an origin and argument descriptors, or a
union of alternatives.  Registry keys (scalar types and generic origins)
are numbered. -/
inductive Desc where
  | scalar (id : Nat) : Desc
  | generic (origin : Nat) (args : List Desc) : Desc
  | union (args : List Desc) : Desc

/-- Lookup in the registry dictionary `Enumerator._enumerators`, modelled
as an association list where `register` prepends (so the first match is
the last write). -/
def lookupReg {V : Type} : List (Nat × V) → Nat → Option V
  | [], _ => none
  | (j, v) :: r, i => if j = i then some v else lookupReg r i

mutual

/-- Embedding of `Enumerator.find`: a scalar is looked up directly; a
generic alias first resolves its argument descriptors recursively, then
looks up the origin's builder and applies it (`ap`); a union resolves its
alternatives and combines them with `Enumerator.sum` (`sm`).  A failed
dictionary lookup raises `TypeError("could not find Enumerator for ...")`,
modelled as `Except.error`. -/
def findE {V : Type} (ap : V → List V → V) (sm : List V → V) (r : List (Nat × V)) : Desc → Except String V
  | .scalar i =>
    match lookupReg r i with
    | some v => Except.ok v
    | none => Except.error "could not find Enumerator"
  | .generic o args =>
    match findList ap sm r args with
    | Except.error e => Except.error e
    | Except.ok vs =>
      match lookupReg r o with
      | some bld => Except.ok (ap bld vs)
      | none => Except.error "could not find Enumerator"
  | .union args =>
    match findList ap sm r args with
    | Except.error e => Except.error e
    | Except.ok vs => Except.ok (sm vs)

/-- Resolution of a list of argument descriptors, as in the comprehension
`[Enumerator[a] for a in args]`: the first failure propagates. -/
def findList {V : Type} (ap : V → List V → V) (sm : List V → V) (r : List (Nat × V)) : List Desc → Except String (List V)
  | [] => Except.ok []
  | d :: ds =>
    match findE ap sm r d with
    | Except.error e => Except.error e
    | Except.ok v =>
      match findList ap sm r ds with
      | Except.error e => Except.error e
      | Except.ok vs => Except.ok (v :: vs)

end

/-- `Enumerator.find` with the registry state threaded explicitly: the
Python method only reads `cls._enumerators`, so the state it returns is
the state it was given. -/
def findSt {V : Type} (ap : V → List V → V) (sm : List V → V) (r : List (Nat × V)) (d : Desc) : Except String V × List (Nat × V) :=
  (findE ap sm r d, r)

/-! ### The `check` driver loop (`base.check`) -/

/-- Outcome of calling the property on one argument tuple: a returned
value (tested for falsiness), a raised `PreconditionUnmatched`, or any
other raised exception. -/
inductive PropResult where
  | value (b : Bool) : PropResult
  | preconditionUnmatched : PropResult
  | error : PropResult
deriving DecidableEq

/-- Embedding of the `for`/`try` loop of `base.check` over the enumerated
argument tuples: a falsy return value returns `False`; a
`PreconditionUnmatched` is caught first and `continue`s; any other
exception returns `False`; an exhausted loop returns `True`. -/
def check {α : Type} (prop : α → PropResult) : List α → Bool
  | [] => true
  | x :: xs =>
    match prop x with
    | .value false => false
    | .value true => check prop xs
    | .preconditionUnmatched => check prop xs
    | .error => false

/-- Embedding of `base.precondition`: raises `PreconditionUnmatched`
(modelled as `Except.error ()`) exactly when the condition is falsy. -/
def precondition (condition : Bool) : Except Unit Unit :=
  if condition then Except.ok () else Except.error ()

/-- A sample property used to witness the `check` theorems: skips on `0`,
passes on `1`, raises on anything else. -/
def sampleProp (n : Nat) : PropResult :=
  if n = 0 then .preconditionUnmatched else if n = 1 then .value true else .error

/-! ## Helper lemmas -/

theorem flatten_eq_nil_of_forall {α : Type} {l : List (List α)} (h : ∀ x ∈ l, x = []) :
    l.flatten = [] := by
  induction l with
  | nil => rfl
  | cons x xs ih =>
    rw [List.flatten_cons, h x (by simp), ih (fun y hy => h y (by simp [hy]))]
    rfl

theorem flatten_map_singleton {α : Type} (vs : List α) :
    (vs.map (fun v => [v])).flatten = vs := by
  induction vs with
  | nil => rfl
  | cons v vs ih => simp [ih]

theorem length_le_maxLength {α : Type} {tss : List (List (List α))} {ts : List (List α)}
    (h : ts ∈ tss) : ts.length ≤ maxLength tss := by
  induction tss with
  | nil => cases h
  | cons t tss ih =>
    rcases List.mem_cons.mp h with h | h
    · subst h
      exact le_max_left _ _
    · exact le_trans (ih h) (le_max_right _ _)

theorem zippend_length {α : Type} (tss : List (List (List α))) :
    (zippend tss).length = maxLength tss := by
  simp [zippend]

theorem zippend_getD {α : Type} (tss : List (List (List α))) (i : Nat) :
    (zippend tss).getD i [] = (tss.map (fun ts => ts.getD i [])).flatten := by
  by_cases h : i < maxLength tss
  · rw [List.getD_eq_getElem _ _ (by simpa [zippend] using h)]
    simp [zippend]
  · rw [List.getD_eq_default _ _ (by rw [zippend_length]; omega)]
    symm
    apply flatten_eq_nil_of_forall
    intro x hx
    rcases List.mem_map.mp hx with ⟨ts, hts, rfl⟩
    exact List.getD_eq_default _ _ (le_trans (length_le_maxLength hts) (by omega))

theorem range_map_getD {α : Type} (l : List α) (d : α) :
    (List.range l.length).map (fun i => l.getD i d) = l := by
  induction l with
  | nil => rfl
  | cons x xs ih =>
    rw [List.length_cons, List.range_succ_eq_map, List.map_cons, List.map_map]
    have hc : ((fun i => (x :: xs).getD i d) ∘ Nat.succ) = fun i => xs.getD i d := by
      funext i
      simp
    rw [hc, ih]
    rfl

theorem mmul_assoc (M N P : Mat2) : mmul (mmul M N) P = mmul M (mmul N P) := by
  cases M
  cases N
  cases P
  simp only [mmul, Mat2.mk.injEq]
  refine ⟨by ring, by ring, by ring, by ring⟩

theorem mId_mmul (M : Mat2) : mmul mId M = M := by
  cases M
  simp [mmul, mId]

theorem mmul_mId (M : Mat2) : mmul M mId = M := by
  cases M
  simp [mmul, mId]

theorem mProd_append (L L' : List Bool) : mProd (L ++ L') = mmul (mProd L) (mProd L') := by
  induction L with
  | nil => rw [List.nil_append]; exact (mId_mmul _).symm
  | cons bt L ih =>
    show mmul (mOfBit bt) (mProd (L ++ L')) = mmul (mmul (mOfBit bt) (mProd L)) (mProd L')
    rw [ih, mmul_assoc]

theorem mtrans_mmul (M N : Mat2) : mtrans (mmul M N) = mmul (mtrans N) (mtrans M) := by
  cases M
  cases N
  simp only [mmul, mtrans, Mat2.mk.injEq]
  refine ⟨by ring, by ring, by ring, by ring⟩

theorem mtrans_mOfBit (bt : Bool) : mtrans (mOfBit bt) = mOfBit (!bt) := by
  cases bt <;> rfl

theorem mProd_singleton (bt : Bool) : mProd [bt] = mOfBit bt := by
  show mmul (mOfBit bt) mId = mOfBit bt
  exact mmul_mId _

theorem mProd_reverse (L : List Bool) :
    mProd L.reverse = mtrans (mProd (L.map (fun x => !x))) := by
  induction L with
  | nil => rfl
  | cons bt L ih =>
    rw [List.reverse_cons, mProd_append, ih, mProd_singleton, List.map_cons]
    rw [show mProd ((!bt) :: L.map (fun x => !x)) =
      mmul (mOfBit (!bt)) (mProd (L.map (fun x => !x))) from rfl]
    rw [mtrans_mmul, mtrans_mOfBit, Bool.not_not]

theorem mProd_not_entries (L : List Bool) :
    (mProd L).b = (mProd (L.map (fun x => !x))).c ∧
    (mProd L).d = (mProd (L.map (fun x => !x))).a := by
  induction L with
  | nil => exact ⟨rfl, rfl⟩
  | cons bt L ih =>
    rcases ih with ⟨ih1, ih2⟩
    cases bt <;> simp [mProd, mmul, mOfBit] <;> omega

theorem bitsAux_zero (f : Nat) : bitsAux f 0 = [] := by
  cases f <;> rfl

theorem bitsAux_stable : ∀ f g n : Nat, n ≤ f → n ≤ g → bitsAux f n = bitsAux g n := by
  intro f
  induction f with
  | zero =>
    intro g n hf _
    have hn : n = 0 := by omega
    subst hn
    rw [bitsAux_zero, bitsAux_zero]
  | succ f ih =>
    intro g n hf hg
    by_cases hn : n = 0
    · subst hn
      rw [bitsAux_zero, bitsAux_zero]
    · rcases Nat.exists_eq_succ_of_ne_zero (show g ≠ 0 by omega) with ⟨g', rfl⟩
      simp only [bitsAux]
      rw [if_neg hn, if_neg hn, ih g' (n / 2) (by omega) (by omega)]

theorem bitsLSB_pos {n : Nat} (h : 0 < n) :
    bitsLSB n = decide (n % 2 = 1) :: bitsLSB (n / 2) := by
  rcases Nat.exists_eq_succ_of_ne_zero (show n ≠ 0 by omega) with ⟨m, rfl⟩
  show bitsAux (m + 1) (m + 1) = _
  simp only [bitsAux]
  rw [if_neg (by omega)]
  rw [bitsAux_stable m ((m + 1) / 2) ((m + 1) / 2) (by omega) (by omega)]
  rfl

theorem fuscGo_zero (f a b : Nat) : fuscGo f 0 a b = b := by
  cases f <;> rfl

theorem fuscGo_mat : ∀ f n a b : Nat, n ≤ f →
    fuscGo f n a b = (mProd (bitsLSB n)).b * a + (mProd (bitsLSB n)).d * b := by
  intro f
  induction f with
  | zero =>
    intro n a b hf
    have hn : n = 0 := by omega
    subst hn
    show b = (mProd (bitsLSB 0)).b * a + (mProd (bitsLSB 0)).d * b
    simp [bitsLSB, bitsAux, mProd, mId]
  | succ f ih =>
    intro n a b hf
    by_cases hn : n = 0
    · subst hn
      rw [fuscGo_zero]
      simp [bitsLSB, bitsAux, mProd, mId]
    · rw [bitsLSB_pos (show 0 < n by omega)]
      by_cases hpar : n % 2 = 0
      · rw [show decide (n % 2 = 1) = false by simp [hpar]]
        have hgo : fuscGo (f + 1) n a b = fuscGo f (n / 2) (a + b) b := by
          simp only [fuscGo]
          rw [if_neg hn, if_pos hpar]
        rw [hgo, ih (n / 2) (a + b) b (by omega)]
        simp [mProd, mmul, mOfBit]
        ring
      · rw [show decide (n % 2 = 1) = true by simp; omega]
        have hgo : fuscGo (f + 1) n a b = fuscGo f (n / 2) a (b + a) := by
          simp only [fuscGo]
          rw [if_neg hn, if_neg hpar]
        rw [hgo, ih (n / 2) a (b + a) (by omega)]
        simp [mProd, mmul, mOfBit]
        ring

theorem fusc_mat (n : Nat) : fusc n = (mProd (bitsLSB n)).b := by
  have h := fuscGo_mat n n 1 0 (le_refl n)
  simpa [fusc] using h

theorem foldl_fuscStep_mat : ∀ (L : List Bool) (a b : Nat),
    (L.foldl fuscStep (a, b)).2 = (mProd L).b * a + (mProd L).d * b := by
  intro L
  induction L with
  | nil =>
    intro a b
    simp [mProd, mId]
  | cons bt L ih =>
    intro a b
    cases bt
    · rw [List.foldl_cons, show fuscStep (a, b) false = (a + b, b) from rfl, ih]
      simp [mProd, mmul, mOfBit]
      ring
    · rw [List.foldl_cons, show fuscStep (a, b) true = (a, b + a) from rfl, ih]
      simp [mProd, mmul, mOfBit]
      ring

theorem fuscSpec_mat (n : Nat) : fuscSpec n = (mProd (bitsLSB n).reverse).b := by
  have h := foldl_fuscStep_mat (bitsLSB n).reverse 1 0
  simpa [fuscSpec] using h

theorem fusc_eq_fuscSpec (n : Nat) : fusc n = fuscSpec n := by
  rw [fusc_mat, fuscSpec_mat, mProd_reverse]
  exact (mProd_not_entries (bitsLSB n)).1

theorem bitsLSB_two_mul {n : Nat} (h : 0 < n) : bitsLSB (2 * n) = false :: bitsLSB n := by
  rw [bitsLSB_pos (show 0 < 2 * n by omega)]
  rw [show (2 * n) % 2 = 0 from by omega, show (2 * n) / 2 = n from by omega]
  rfl

theorem bitsLSB_two_mul_add_one (n : Nat) : bitsLSB (2 * n + 1) = true :: bitsLSB n := by
  rw [bitsLSB_pos (show 0 < 2 * n + 1 by omega)]
  rw [show (2 * n + 1) % 2 = 1 from by omega, show (2 * n + 1) / 2 = n from by omega]
  rfl

theorem fusc_even (n : Nat) : fusc (2 * n) = fusc n := by
  by_cases h : n = 0
  · subst h
    rfl
  · rw [fusc_mat (2 * n), fusc_mat n, bitsLSB_two_mul (show 0 < n by omega)]
    simp [mProd, mmul, mOfBit]

theorem mProd_bits_d (n : Nat) : (mProd (bitsLSB n)).d = fusc (n + 1) := by
  induction n using Nat.strong_induction_on with
  | _ n ih =>
    by_cases h0 : n = 0
    · subst h0
      rfl
    · have hsplit : n = 2 * (n / 2) ∨ n = 2 * (n / 2) + 1 := by omega
      rcases hsplit with he | ho
      · have hm : 0 < n / 2 := by omega
        rw [he, bitsLSB_two_mul hm,
          show fusc (2 * (n / 2) + 1) = (mProd (bitsLSB (2 * (n / 2) + 1))).b from fusc_mat _,
          bitsLSB_two_mul_add_one]
        simp [mProd, mmul, mOfBit]
      · have hlt : n / 2 < n := by omega
        rw [ho, bitsLSB_two_mul_add_one,
          show 2 * (n / 2) + 1 + 1 = 2 * (n / 2 + 1) from by omega, fusc_even (n / 2 + 1)]
        have := ih (n / 2) hlt
        simp only [mProd, mmul, mOfBit]
        simpa using this

theorem fusc_odd (n : Nat) : fusc (2 * n + 1) = fusc n + fusc (n + 1) := by
  rw [fusc_mat (2 * n + 1), bitsLSB_two_mul_add_one, fusc_mat n, ← mProd_bits_d n]
  simp [mProd, mmul, mOfBit]

/-! ## Claims -/

/-- Claim C1 (code bug): `pproduct` is claimed to place every pair `(a, b)`
from tiers `i` and `j` of its inputs at tier `i + j`, with no pair
postponed forever even when intermediate tiers are empty.  The code's
`break` on the first empty output tier violates this: for inputs with
tiers `[[0], [], [1]]` and `[[2]]`, the product tier at index `1` is
empty, so the generator stops after yielding `[(0, 2)]` and the pair
`(1, 2)` — due at tier `2 + 0 = 2` — never appears, however many tiers a
consumer demands. -/
theorem pproduct_incomplete_on_empty_tier :
    pproduct (tiersOf [[(0 : Nat)], [], [1]]) (tiersOf [[(2 : Nat)]]) Prod.mk 5 = [[(0, 2)]] ∧
    ∀ fuel : Nat,
      ((1, 2) : Nat × Nat) ∉
        (pproduct (tiersOf [[(0 : Nat)], [], [1]]) (tiersOf [[(2 : Nat)]]) Prod.mk fuel).flatten := by
  refine ⟨by decide, ?_⟩
  have hstuck : ∀ fuel : Nat,
      pproductFrom (tiersOf [[(0 : Nat)], [], [1]]) (tiersOf [[(2 : Nat)]]) Prod.mk 1 fuel = [] := by
    intro fuel
    cases fuel with
    | zero => rfl
    | succ f => rfl
  intro fuel
  cases fuel with
  | zero => decide
  | succ f =>
    have h : pproduct (tiersOf [[(0 : Nat)], [], [1]]) (tiersOf [[(2 : Nat)]]) Prod.mk (f + 1) =
        [(0, 2)] :: pproductFrom (tiersOf [[(0 : Nat)], [], [1]]) (tiersOf [[(2 : Nat)]]) Prod.mk 1 f := rfl
    rw [h, hstuck f]
    decide

/-- Claim C2 (confirmed): for every natural number `n`, the spec's fusc
algorithm — accumulator pair `(a, b) = (1, 0)`, bits of `n` scanned from
most to least significant, `a += b` on a `0` bit and `b += a` on a `1`
bit, returning the final `b` — computes the same value as the code's
`fusc`, which scans the bits from least to most significant with the same
update rules; both give `fusc(0) = 0` and satisfy the Stern recurrence
`fusc(2n) = fusc(n)` and `fusc(2n+1) = fusc(n) + fusc(n+1)`. -/
theorem fusc_matches_spec (n : Nat) :
    fusc n = fuscSpec n ∧ fusc 0 = 0 ∧
    fusc (2 * n) = fusc n ∧ fusc (2 * n + 1) = fusc n + fusc (n + 1) :=
  ⟨fusc_eq_fuscSpec n, rfl, fusc_even n, fusc_odd n⟩

/-- Claim C3 (corrected): flattening `Enumerator.choices([0,1]).lists()`
does not begin `[[], [0], [1], [0,0], [1,0], [0,1]]` as the spec states —
`choices` places `0` and `1` in separate tiers, so the actual first six
flattened values are `[[], [0], [0,0], [1], [0,0,0], [0,1]]`.  This
theorem refutes the claimed prefix. -/
theorem listss_choices_first_six_ne_spec :
    ((listssTiers (tiersOf (choicesL [(0 : Nat), 1])) 3).flatten.take 6) ≠
      [[], [0], [1], [0, 0], [1, 0], [0, 1]] := by
  decide

/-- Claim C3 (amended): the first six flattened values of
`Enumerator.choices([0,1]).lists()` are
`[[], [0], [0,0], [1], [0,0,0], [0,1]]`, in that order. -/
theorem listss_choices_first_six :
    ((listssTiers (tiersOf (choicesL [(0 : Nat), 1])) 3).flatten.take 6) =
      [[], [0], [0, 0], [1], [0, 0, 0], [0, 1]] := by
  decide

/-- Claim C4 (corrected): `Enumerator.choices` applied to a list does not
produce a single tier containing all values — on `[0, 1]` it produces the
two tiers `[[0], [1]]`. -/
theorem choices_single_tier_refuted :
    choicesL [(0 : Nat), 1] = [[0], [1]] ∧ (choicesL [(0 : Nat), 1]).length ≠ 1 := by
  decide

/-- Claim C4 (amended): `Enumerator.choices` applied to a list of values
produces one singleton tier per value, in order — earlier values are of
smaller size — so the stream has as many tiers as values and flattens back
to the given list. -/
theorem choices_per_value_tiers {α : Type} (vs : List α) :
    choicesL vs = vs.map (fun v => [v]) ∧
    (choicesL vs).length = vs.length ∧
    (choicesL vs).flatten = vs := by
  have h1 : choicesL vs = vs.map (fun v => [v]) := by
    have hm : maxLength [nest vs] = (nest vs).length := by
      simp [maxLength]
    calc choicesL vs
        = (List.range (maxLength [nest vs])).map
            (fun i => ([nest vs].map (fun ts => ts.getD i [])).flatten) := rfl
      _ = (List.range (nest vs).length).map (fun i => (nest vs).getD i []) := by
            rw [hm]
            apply List.map_congr_left
            intro i _
            simp
      _ = nest vs := range_map_getD _ _
      _ = vs.map (fun v => [v]) := rfl
  refine ⟨h1, ?_, ?_⟩
  · rw [h1, List.length_map]
  · rw [h1, flatten_map_singleton]

/-- Claim C6 (code bug): `enumerator.py` registers the enumeration for
`str` by dereferencing `gen.strss`, but the module `leancheck.gen` defines
no such name — the string tier generator is called `stringss` — so module
initialization fails instead of registering the sequence-of-characters
enumeration.  The intended `stringss` (embedded here) does satisfy the
claimed shape: its first flattened value is the empty string,
its next is `"a"`, and its tiers are the joins of the tiers of
`listss` over the nested character stream. -/
theorem str_registration_attr_missing :
    strRegistrationAttr ∉ genDefNames ∧ "stringss" ∈ genDefNames ∧
    (stringssTiers 3).flatten.headD "?" = "" ∧
    (stringssTiers 1).flatten = ["", "a"] := by
  exact ⟨by decide, by decide, by decide, by decide⟩

/-- Claim C7 (confirmed): tier `i` of `zippend` (the `+` operator and
`Enumerator.sum`) is the concatenation, in argument order, of tier `i` of
each input, a missing tier contributing nothing, and the result has as
many tiers as the longest input; in particular for inputs with tiers
`[[a], [b]]` and `[[c, d]]` the result's tiers are `[[a, c, d], [b]]`. -/
theorem zippend_tierwise {α : Type} (tss : List (List (List α))) (i : Nat) (a b c d : α) :
    (zippend tss).length = maxLength tss ∧
    (zippend tss).getD i [] = (tss.map (fun ts => ts.getD i [])).flatten ∧
    zippend [[[a], [b]], [[c, d]]] = [[a, c, d], [b]] := by
  exact ⟨zippend_length tss, zippend_getD tss i, rfl⟩

/-- Claim C8 (confirmed): the first six values of `positive_floats` — the
Calkin–Wilf sequence `fusc(n)/fusc(n+1)` for `n = 1, 2, 3, ...`, with the
division embedded as exact rational division — are
`1, 1/2, 2, 1/3, 3/2, 2/3`, in that order. -/
theorem positive_floats_first_six :
    (List.range 6).map positive_floats = [1, 1/2, 2, 1/3, 3/2, 2/3] := by
  norm_num [positive_floats, List.range_succ,
    show fusc 1 = 1 from rfl, show fusc 2 = 1 from rfl, show fusc 3 = 2 from rfl,
    show fusc 4 = 1 from rfl, show fusc 5 = 3 from rfl, show fusc 6 = 2 from rfl,
    show fusc 7 = 3 from rfl]

/-- Claim C5 (corrected): the claim extends the recipe property to
`Enumerator.choices` applied to a generator argument, but a generator
object is returned unchanged by `iter(obj)` and therefore consumed by the
first traversal: the first call of `tiers()` on `choices(<generator
yielding 0>)` produces `[[0]]`, while the second produces the empty
stream. -/
theorem choices_generator_consumed :
    (choicesTiersCall [PyArg.generator [(0 : Nat)]]).1 = [[0]] ∧
    (choicesTiersCall (choicesTiersCall [PyArg.generator [(0 : Nat)]]).2).1 = [] ∧
    (choicesTiersCall (choicesTiersCall [PyArg.generator [(0 : Nat)]]).2).1 ≠
      (choicesTiersCall [PyArg.generator [(0 : Nat)]]).1 := by
  exact ⟨by decide, by decide, by decide⟩

/-- Claim C5 (amended): for enumerators built by `Enumerator.choices` from
re-iterable arguments — callables, collections, or plain non-iterable
values, i.e. anything but a one-shot generator object — a call of the
`tiers()` lambda leaves the arguments' states unchanged, so two
independent iterations each start at tier 0 and yield identical
sequences. -/
theorem choices_reiterable_recipe {α : Type} (args : List (PyArg α))
    (h : ∀ a ∈ args, reiterable a = true) :
    (choicesTiersCall args).2 = args ∧
    (choicesTiersCall (choicesTiersCall args).2).1 = (choicesTiersCall args).1 := by
  have h2 : (choicesTiersCall args).2 = args := by
    show args.map (fun a => (tierify a).2) = args
    have hcongr : args.map (fun a => (tierify a).2) = args.map id := by
      apply List.map_congr_left
      intro a ha
      have hr := h a ha
      cases a <;> simp [tierify, reiterable] at hr ⊢
    simpa using hcongr
  exact ⟨h2, by rw [h2]⟩

theorem choices_reiterable_recipe_witness :
    (choicesTiersCall [PyArg.callable [(0 : Nat), 1], PyArg.plain 5]).2 =
      [PyArg.callable [(0 : Nat), 1], PyArg.plain 5] ∧
    (choicesTiersCall (choicesTiersCall [PyArg.callable [(0 : Nat), 1], PyArg.plain 5]).2).1 =
      (choicesTiersCall [PyArg.callable [(0 : Nat), 1], PyArg.plain 5]).1 :=
  choices_reiterable_recipe [PyArg.callable [(0 : Nat), 1], PyArg.plain 5] (by decide)

/-- Claim C9 (confirmed): resolving a descriptor with no registered entry
(`Enumerator.find`, i.e. `Enumerator[...]`) returns the
`TypeError("could not find Enumerator ...")` failure synchronously and
leaves the registry unchanged — resolution of a generic alias whose origin
is unregistered also never succeeds — and every type registered before the
failed resolution still resolves to the same enumerator afterward. -/
theorem find_unknown_type {V : Type} (ap : V → List V → V) (sm : List V → V)
    (r : List (Nat × V)) (i : Nat) (d : Desc) (h : lookupReg r i = none) :
    findSt ap sm r (Desc.scalar i) = (Except.error "could not find Enumerator", r) ∧
    (findSt ap sm r d).2 = r ∧
    (∀ args v, findE ap sm r (Desc.generic i args) ≠ Except.ok v) ∧
    (∀ j v, lookupReg r j = some v →
      findE ap sm (findSt ap sm r (Desc.scalar i)).2 (Desc.scalar j) = Except.ok v) := by
  refine ⟨?_, rfl, ?_, ?_⟩
  · show (findE ap sm r (Desc.scalar i), r) = _
    simp [findE, h]
  · intro args v
    cases hfl : findList ap sm r args with
    | error e => simp [findE, hfl]
    | ok vs => simp [findE, hfl, h]
  · intro j v hj
    show findE ap sm r (Desc.scalar j) = Except.ok v
    simp [findE, hj]

theorem find_unknown_type_witness :
    findSt (fun bld _ => bld) (fun _ => 0) [((0 : Nat), (17 : Nat))] (Desc.scalar 5) =
      (Except.error "could not find Enumerator", [(0, 17)]) ∧
    findE (fun bld _ => bld) (fun _ => 0)
      (findSt (fun bld _ => bld) (fun _ => 0) [((0 : Nat), (17 : Nat))] (Desc.scalar 5)).2
      (Desc.scalar 0) = Except.ok 17 := by
  have h := find_unknown_type (fun bld _ => bld) (fun _ => (0 : Nat)) [(0, 17)] 5
    (Desc.scalar 5) (by decide)
  exact ⟨h.1, h.2.2.2 0 17 (by decide)⟩

/-- Claim C10 (confirmed): in the `check` loop, a tuple on which the
property raises `PreconditionUnmatched` is skipped and, by itself, never
makes `check` return `False` — a run in which every call either skips or
returns truthy yields `True` — while a tuple on which the property raises
any other exception makes `check` return `False` immediately, whatever
comes after it; and `precondition(c)` raises `PreconditionUnmatched`
exactly when `c` is falsy. -/
theorem check_precondition_skip {α : Type} (prop : α → PropResult) (x : α)
    (xs pre post : List α) :
    (prop x = PropResult.preconditionUnmatched → check prop (x :: xs) = check prop xs) ∧
    ((∀ a ∈ xs, prop a = PropResult.preconditionUnmatched ∨ prop a = PropResult.value true) →
      check prop xs = true) ∧
    ((∀ a ∈ pre, prop a = PropResult.preconditionUnmatched ∨ prop a = PropResult.value true) →
      prop x = PropResult.error → check prop (pre ++ x :: post) = false) ∧
    (∀ c, precondition c = Except.error () ↔ c = false) := by
  refine ⟨?_, ?_, ?_, ?_⟩
  · intro h
    simp [check, h]
  · intro h
    induction xs with
    | nil => rfl
    | cons y ys ih =>
      rcases h y (by simp) with hy | hy <;>
        simp only [check, hy] <;>
        exact ih (fun a ha => h a (by simp [ha]))
  · intro hpre hx
    induction pre with
    | nil => simp [check, hx]
    | cons y ys ih =>
      rcases hpre y (by simp) with hy | hy <;>
        simp only [List.cons_append, check, hy] <;>
        exact ih (fun a ha => hpre a (by simp [ha]))
  · intro c
    cases c <;> simp [precondition]

theorem check_precondition_skip_witness :
    check sampleProp (0 :: [1]) = check sampleProp [1] ∧
    check sampleProp [0, 1] = true ∧
    check sampleProp ([0, 1] ++ 2 :: [3]) = false := by
  refine ⟨?_, ?_, ?_⟩
  · exact (check_precondition_skip sampleProp 0 [1] [] []).1 (by decide)
  · exact (check_precondition_skip sampleProp 2 [0, 1] [0, 1] [3]).2.1 (by decide)
  · exact (check_precondition_skip sampleProp 2 [0, 1] [0, 1] [3]).2.2.1 (by decide) (by decide)

end LeanCheck
